import Mathlib

/-!
# Market-price estimation pipeline: shallow embedding and verification

This file embeds the market-price estimation core of
`src/static/analysis/research_wizard/ebay_modal.js` into Lean 4 and proves
the specified properties about it.

JavaScript numbers are modelled as real numbers (`ℝ`); `Math.log`, `Math.exp`
and `Math.pow` become `Real.log`, `Real.exp` and `Real.rpow`; `Math.floor` and
`Math.ceil` become `Int.floor` and `Int.ceil`; JavaScript array sorts with a
numeric comparator become `List.insertionSort` (a stable ascending sort, as in
modern JS engines).  A scraped listing enters the pipeline as a price together
with the result of `parseSoldDate` (a timestamp in milliseconds, or `none`
when the date is absent or unparseable); the string-level date parsing itself
is irrelevant to every property below.  `null` results become `Option.none`.
-/

noncomputable section

open Real List

/-- One scraped marketplace listing, as seen by the estimation core:
`price` is `Number(item.price)` and `sold` is `parseSoldDate(item.sold)` —
a timestamp in milliseconds since the epoch, or `none` when parsing failed.
A non-numeric (`NaN`) price is modelled by any non-positive value, since every
stage filters with the same `!isNaN(p) && p > 0` test. -/
structure Listing where
  price : ℝ
  sold : Option ℝ

instance : Inhabited Listing := ⟨⟨0, none⟩⟩

/-- A listing that survived the validity filter of
`calculateIntelligentAverage`: a positive price plus a parsed sold date
(milliseconds since the epoch). -/
structure ValidListing where
  price : ℝ
  date : ℝ

instance : Inhabited ValidListing := ⟨⟨0, 0⟩⟩

instance : DecidableRel fun a b : ValidListing => a.date ≤ b.date :=
  fun a b => inferInstanceAs (Decidable (a.date ≤ b.date))

instance : DecidableRel fun a b : ℝ => Real.log a ≤ Real.log b :=
  fun a b => inferInstanceAs (Decidable (Real.log a ≤ Real.log b))

/-- Milliseconds per day, the `1000 * 60 * 60 * 24` conversion used throughout
`ebay_modal.js`. -/
def msPerDay : ℝ := 1000 * 60 * 60 * 24

-- ============================================
-- STATS & CALCULATIONS  (ebay_modal.js:630-686, 764-809)
-- ============================================

/-- The even/odd-aware median of an already sorted list, as computed (inline,
with `mid = Math.floor(length / 2)`) in `removeOutliers`, `calculateStats`
and `calculateIntelligentAverage`.  All call sites pass a non-empty list, so
the `getD` defaults are never read. -/
def medianOfSorted (l : List ℝ) : ℝ :=
  let mid := l.length / 2
  if l.length % 2 = 0 then (l.getD (mid - 1) 0 + l.getD mid 0) / 2
  else l.getD mid 0

/-- `prices.filter(p => p > 0)` — step 0 of `removeOutliers`
(ebay_modal.js:634). -/
def validPrices (prices : List ℝ) : List ℝ := prices.filter fun p => 0 < p

/-- The median of the valid prices, taken over the ascending sort
(ebay_modal.js:638-645). -/
def semanticMedian (prices : List ℝ) : ℝ :=
  medianOfSorted ((validPrices prices).insertionSort (· ≤ ·))

/-- The source constant named `FLOOR` underscore `RATIO`, equal to `0.25`
(ebay_modal.js:648). -/
def floorRatio : ℝ := 0.25

/-- Step 1 of `removeOutliers`: the semantic floor
`valid.filter(p => p >= median * floorRatio)` (ebay_modal.js:649). -/
def semanticFiltered (prices : List ℝ) : List ℝ :=
  (validPrices prices).filter fun p => semanticMedian prices * floorRatio ≤ p

/-- The interpolated percentile of `removeOutliers` (ebay_modal.js:664-673),
applied to the sorted list of log-prices:
`index = (arr.length - 1) * p`, interpolating between the entries at
`Math.floor(index)` and `Math.ceil(index)`. -/
def percentileLin (logs : List ℝ) (p : ℝ) : ℝ :=
  let index : ℝ := ((logs.length : ℝ) - 1) * p
  let lower := ⌊index⌋
  let upper := ⌈index⌉
  if lower = upper then logs.getD lower.toNat 0
  else
    logs.getD lower.toNat 0 +
      (logs.getD upper.toNat 0 - logs.getD lower.toNat 0) * (index - (lower : ℝ))

/-- The semantically-floored prices sorted by their natural log — the
`pairs.sort((a, b) => a.log - b.log)` array of `removeOutliers`
(ebay_modal.js:657-662), with each pair represented by its price component
(its log component is recomputed by `Real.log` where needed). -/
def sortedByLog (prices : List ℝ) : List ℝ :=
  (semanticFiltered prices).insertionSort fun a b => Real.log a ≤ Real.log b

/-- `removeOutliers(prices)` (ebay_modal.js:630-686): semantic floor, then a
log-space IQR filter with asymmetric bounds `[q1 - 1.5*iqr, q3 + 3.0*iqr]`. -/
def removeOutliers (prices : List ℝ) : List ℝ :=
  if prices.length < 4 then prices
  else if (validPrices prices).length < 4 then prices
  else if (semanticFiltered prices).length < 4 then semanticFiltered prices
  else
    let pairs := sortedByLog prices
    let logs := pairs.map Real.log
    let q1 := percentileLin logs 0.25
    let q3 := percentileLin logs 0.75
    let iqr := q3 - q1
    let lowerBound := q1 - 1.5 * iqr
    let upperBound := q3 + 3.0 * iqr
    pairs.filter fun p => lowerBound ≤ Real.log p ∧ Real.log p ≤ upperBound

/-- `removeOutliers(listings)` (ebay_modal.js:1843-1909), the listing-level
variant: identical statistics on the extracted positive prices, with the
surviving listings recovered through a price set-membership test
(`priceSet.has(Number(item.price))` / `validPrices.has(Number(item.price))`). -/
def removeOutliersListings (listings : List Listing) : List Listing :=
  let prices := (listings.map Listing.price).filter fun p => 0 < p
  if prices.length < 4 then listings
  else if (validPrices prices).length < 4 then listings
  else if (semanticFiltered prices).length < 4 then
    listings.filter fun item => item.price ∈ semanticFiltered prices
  else
    let pairs := sortedByLog prices
    let logs := pairs.map Real.log
    let q1 := percentileLin logs 0.25
    let q3 := percentileLin logs 0.75
    let iqr := q3 - q1
    let lowerBound := q1 - 1.5 * iqr
    let upperBound := q3 + 3.0 * iqr
    let kept := pairs.filter fun p => lowerBound ≤ Real.log p ∧ Real.log p ≤ upperBound
    listings.filter fun item => item.price ∈ kept

/-- The `{min, avg, median, mode}` record of `calculateStats`; the source
formats each field with `toFixed(2)` for display only, so the model keeps the
full-precision numbers. -/
structure StatSummary where
  min : ℝ
  avg : ℝ
  median : ℝ
  mode : ℝ

/-- The mode scan of `calculateStats` (ebay_modal.js:789-801): walk the sorted
list, `frequency[price] = (frequency[price] || 0) + 1` (i.e. one more than the
occurrences among the already-processed prefix `seen`), and replace the
running mode only on a strictly greater count. -/
def modeGo : List ℝ → List ℝ → ℝ → ℕ → ℝ
  | [], _, m, _ => m
  | p :: rest, seen, m, mc =>
    let c := seen.count p + 1
    if mc < c then modeGo rest (seen ++ [p]) p c
    else modeGo rest (seen ++ [p]) m mc

/-- `calculateStats(prices)` (ebay_modal.js:764-809).  The empty input returns
the `'-'` sentinel record, modelled as `none`. -/
def calculateStats (prices : List ℝ) : Option StatSummary :=
  if prices.length = 0 then none
  else
    let sorted := prices.insertionSort (· ≤ ·)
    some
      { min := sorted.getD 0 0
        avg := sorted.sum / (sorted.length : ℝ)
        median := medianOfSorted sorted
        mode := modeGo sorted [] (sorted.getD 0 0) 1 }

-- ============================================
-- TIME-WEIGHTED ESTIMATOR  (ebay_modal.js:1722-1841)
-- ============================================

/-- The validity filter at the top of `calculateIntelligentAverage`
(ebay_modal.js:1724-1731): keep `{price, date}` for the listings with
`price > 0` (non-`NaN`) and a parseable sold date, in input order. -/
def validListings (listings : List Listing) : List ValidListing :=
  listings.filterMap fun item =>
    match item.sold with
    | none => none
    | some d => if 0 < item.price then some ⟨item.price, d⟩ else none

/-- `validListings.sort((a, b) => a.date.getTime() - b.date.getTime())`
(ebay_modal.js:1748): ascending stable sort by sold date. -/
def sortByDate (l : List ValidListing) : List ValidListing :=
  l.insertionSort fun a b => a.date ≤ b.date

/-- `MIN_DT_DAYS = 0.25` (ebay_modal.js:1756). -/
def MIN_DT_DAYS : ℝ := 0.25

/-- The time gap, in days, of a consecutive pair of date-sorted listings
(ebay_modal.js:1759). -/
def dtDays (ab : ValidListing × ValidListing) : ℝ :=
  (ab.2.date - ab.1.date) / msPerDay

/-- The consecutive pairs `(validListings[i-1], validListings[i])` of the
date-sorted array that survive the `dt > MIN_DT_DAYS` test
(ebay_modal.js:1758-1767). -/
def retainedPairs (l : List ValidListing) : List (ValidListing × ValidListing) :=
  (l.zip l.tail).filter fun ab => MIN_DT_DAYS < dtDays ab

/-- The per-pair instability `|log(price_i) - log(price_{i-1})| / dt`
pushed onto `logPriceDiffs` (ebay_modal.js:1764-1765). -/
def pairRate (ab : ValidListing × ValidListing) : ℝ :=
  |Real.log ab.2.price - Real.log ab.1.price| / dtDays ab

/-- The volatility estimate `v` (ebay_modal.js:1778-1783): the even/odd-aware
median of the sorted `logPriceDiffs`. -/
def volatility (sorted : List ValidListing) : ℝ :=
  medianOfSorted (((retainedPairs sorted).map pairRate).insertionSort (· ≤ ·))

/-- `daysSinceSale` for one listing (ebay_modal.js:1791). -/
def daysSinceSale (now : ℝ) (item : ValidListing) : ℝ :=
  (now - item.date) / msPerDay

/-- The trust weight `w_i = exp(-v * daysSinceSale)` (ebay_modal.js:1790-1793). -/
def trustWeight (now v : ℝ) (item : ValidListing) : ℝ :=
  Real.exp (-(v * daysSinceSale now item))

/-- The geometric center `G = exp(mean of log-prices)` of the 2-3 point branch
(ebay_modal.js:1810-1812). -/
def geometricCenter (valid : List ValidListing) : ℝ :=
  Real.exp ((valid.map fun item => Real.log item.price).sum / (valid.length : ℝ))

/-- `validListings.reduce((newest, item) => item.date > newest.date ? item : newest)`
(ebay_modal.js:1815-1817): fold from the first element, replacing the
accumulator only on a strictly later date. -/
def newestListing (valid : List ValidListing) : ValidListing :=
  valid.tail.foldl (fun newest item => if newest.date < item.date then item else newest)
    valid.headI

/-- `calculateIntelligentAverage(listings)` (ebay_modal.js:1722-1841), with the
ambient clock `new Date()` passed in as `now` (milliseconds since the epoch).

* no valid listing → `null`;
* `n >= 4` → volatility-weighted average over the date-sorted listings, with a
  plain-average fallback when no consecutive pair has `dt > MIN_DT_DAYS`, and a
  final `weightSum > 0` guard;
* `n ∈ {2, 3}` → geometric center with directional trust;
* `n = 1` → the single price. -/
def calculateIntelligentAverage (now : ℝ) (listings : List Listing) : Option ℝ :=
  let valid := validListings listings
  if valid.length = 0 then none
  else
    let n := valid.length
    if 4 ≤ n then
      let sorted := sortByDate valid
      if (retainedPairs sorted).length = 0 then
        some ((sorted.map ValidListing.price).sum / (n : ℝ))
      else
        let v := volatility sorted
        let weightedSum := (sorted.map fun item => item.price * trustWeight now v item).sum
        let weightSum := (sorted.map fun item => trustWeight now v item).sum
        if 0 < weightSum then some (weightedSum / weightSum) else none
    else if n = 2 ∨ n = 3 then
      let G := geometricCenter valid
      let newest := newestListing valid
      if newest.price < G then some newest.price
      else some ((G + newest.price) / 2)
    else some valid.headI.price

-- ============================================
-- HISTOGRAM BINNING  (ebay_modal.js:2038-2127)
-- ============================================

/-- The ascending sort `[...prices].sort((a, b) => a - b)` shared by
`calculateBinWidth` and `generateHistogramData` (ebay_modal.js:2041, 2096). -/
def sortedPrices (prices : List ℝ) : List ℝ := prices.insertionSort (· ≤ ·)

/-- `range = max - min` over the ascending sort (ebay_modal.js:2043-2045). -/
def priceRange (prices : List ℝ) : ℝ :=
  (sortedPrices prices).getD ((sortedPrices prices).length - 1) 0 -
    (sortedPrices prices).getD 0 0

/-- The pre-rounding bin width of `calculateBinWidth`
(ebay_modal.js:2049-2065): Freedman-Diaconis `2*IQR / n^(1/3)` when
`iqr > 0 && n >= 4`, else Sturges `range / ceil(1 + log2 n)`.
The quartile indices are `Math.floor(n * 0.25)` and `Math.floor(n * 0.75)`
into the ascending sort. -/
def rawBinWidth (prices : List ℝ) : ℝ :=
  let sorted := sortedPrices prices
  let n := prices.length
  let q1 := sorted.getD (⌊(n : ℝ) * 0.25⌋).toNat 0
  let q3 := sorted.getD (⌊(n : ℝ) * 0.75⌋).toNat 0
  let iqr := q3 - q1
  if 0 < iqr ∧ 4 ≤ n then (2 * iqr) / (n : ℝ) ^ ((1 : ℝ) / 3)
  else priceRange prices / ((⌈1 + Real.logb 2 (n : ℝ)⌉ : ℤ) : ℝ)

/-- `calculateBinWidth(prices)` (ebay_modal.js:2038-2082): early `10` fallbacks
for fewer than two prices or zero range, then the raw width rounded within its
decade (`magnitude = 10^floor(log10 w)`) to `1`, `2`, `5` or `10` times that
magnitude, floored at `1` by `Math.max(1, binWidth)`. -/
def calculateBinWidth (prices : List ℝ) : ℝ :=
  if prices.length < 2 then 10
  else if priceRange prices = 0 then 10
  else
    let binWidth := rawBinWidth prices
    let magnitude := (10 : ℝ) ^ ⌊Real.logb 10 binWidth⌋
    let normalized := binWidth / magnitude
    let rounded : ℝ :=
      if normalized ≤ 1 then 1
      else if normalized ≤ 2 then 2
      else if normalized ≤ 5 then 5
      else 10
    max 1 (rounded * magnitude)

/-- The `{bins, frequencies, binWidth}` record of `generateHistogramData`. -/
structure HistogramData where
  bins : List (ℝ × ℝ)
  frequencies : List ℕ
  binWidth : ℝ

/-- Increment slot `i` of a frequency array (`frequencies[actualIndex]++`). -/
def bump : List ℕ → ℕ → List ℕ
  | [], _ => []
  | x :: xs, 0 => (x + 1) :: xs
  | x :: xs, n + 1 => x :: bump xs n

/-- The positive prices extracted by `generateHistogramData`
(ebay_modal.js:2088-2090). -/
def histPrices (listings : List Listing) : List ℝ :=
  (listings.map Listing.price).filter fun p => 0 < p

/-- `min` of `generateHistogramData` (ebay_modal.js:2097). -/
def histMin (listings : List Listing) : ℝ :=
  (sortedPrices (histPrices listings)).getD 0 0

/-- `max` of `generateHistogramData` (ebay_modal.js:2098). -/
def histMax (listings : List Listing) : ℝ :=
  (sortedPrices (histPrices listings)).getD
    ((sortedPrices (histPrices listings)).length - 1) 0

/-- The number of iterations of the bin-construction loop
`for (binStart = startBin; binStart < endBin; binStart += binWidth)`
(ebay_modal.js:2110): since `startBin = ⌊min/w⌋·w`, `endBin = ⌈max/w⌉·w` and
`w > 0`, the strictly increasing loop variable `startBin + j·w` stays below
`endBin` exactly for the integers `0 ≤ j < ⌈max/w⌉ - ⌊min/w⌋`. -/
def numBins (minP maxP w : ℝ) : ℕ := (⌈maxP / w⌉ - ⌊minP / w⌋).toNat

/-- One iteration of the `prices.forEach` counting pass
(ebay_modal.js:2117-2124): `binIndex = Math.floor((price - startBin) /
binWidth)`, clamped down to the last slot when it falls at or beyond
`frequencies.length`, and counted only when the clamped index is in range. -/
def histStep (startBin binWidth : ℝ) (fs : List ℕ) (p : ℝ) : List ℕ :=
  let binIndex := ⌊(p - startBin) / binWidth⌋
  let actualIndex := if (fs.length : ℤ) ≤ binIndex then (fs.length : ℤ) - 1 else binIndex
  if 0 ≤ actualIndex ∧ actualIndex < (fs.length : ℤ) then bump fs actualIndex.toNat
  else fs

/-- `generateHistogramData(listings)` (ebay_modal.js:2087-2127). -/
def generateHistogramData (listings : List Listing) : HistogramData :=
  let prices := histPrices listings
  if prices.length = 0 then ⟨[], [], 0⟩
  else
    let minP := histMin listings
    let maxP := histMax listings
    let binWidth := calculateBinWidth prices
    let startBin := (⌊minP / binWidth⌋ : ℝ) * binWidth
    let k := numBins minP maxP binWidth
    let bins := (List.range k).map fun j =>
      (startBin + (j : ℝ) * binWidth, startBin + ((j : ℝ) + 1) * binWidth)
    let frequencies := prices.foldl (histStep startBin binWidth) (List.replicate k 0)
    ⟨bins, frequencies, binWidth⟩
-- ============================================
-- HELPER LEMMAS
-- ============================================

lemma validPrices_length_le (prices : List ℝ) :
    (validPrices prices).length ≤ prices.length :=
  List.length_filter_le _ _

lemma mem_sortedByLog (prices : List ℝ) (p : ℝ) :
    p ∈ sortedByLog prices ↔ p ∈ semanticFiltered prices :=
  (List.perm_insertionSort _ _).mem_iff

lemma semanticFiltered_floor (prices : List ℝ) (p : ℝ)
    (hp : p ∈ semanticFiltered prices) :
    semanticMedian prices * floorRatio ≤ p := by
  have := List.of_mem_filter hp
  simpa using this

-- ============================================
-- C9: removeOutliers is the identity on small inputs
-- ============================================

/-- C9: for every input with fewer than 4 positive-priced entries, both
`removeOutliers` variants act as the identity: the price-level variant returns
its input unchanged, and the listing-level variant returns its input
unchanged, so every input listing is in the cleaned subset (nothing would be
flagged anomalous, since `isAnomalous` is derived as exclusion from the
cleaned subset). -/
theorem removeOutliers_small_input_identity (prices : List ℝ) (listings : List Listing)
    (hp : (validPrices prices).length < 4)
    (hl : (validPrices (listings.map Listing.price)).length < 4) :
    removeOutliers prices = prices ∧
      removeOutliersListings listings = listings ∧
      ∀ item ∈ listings, item ∈ removeOutliersListings listings := by
  have h1 : removeOutliers prices = prices := by
    unfold removeOutliers
    by_cases ha : prices.length < 4
    · rw [if_pos ha]
    · rw [if_neg ha, if_pos hp]
  have h2 : removeOutliersListings listings = listings := by
    unfold removeOutliersListings
    rw [if_pos]
    exact hl
  refine ⟨h1, h2, ?_⟩
  intro item hitem
  rw [h2]
  exact hitem

/-- Witness for C9 at `prices = [1, 2, 3]` and a single listing of price 1. -/
theorem removeOutliers_small_input_identity_witness :
    (validPrices [1, 2, 3]).length < 4 ∧
      removeOutliers [1, 2, 3] = [1, 2, 3] ∧
      removeOutliersListings [⟨1, none⟩] = [⟨1, none⟩] := by
  have hp : (validPrices ([1, 2, 3] : List ℝ)).length < 4 := by
    norm_num [validPrices]
  have hl : (validPrices (([⟨1, none⟩] : List Listing).map Listing.price)).length < 4 := by
    norm_num [validPrices]
  exact ⟨hp, (removeOutliers_small_input_identity [1, 2, 3] [⟨1, none⟩] hp hl).1,
    (removeOutliers_small_input_identity [1, 2, 3] [⟨1, none⟩] hp hl).2.1⟩

-- ============================================
-- C5: semantic floor
-- ============================================

/-- C5: once the filter is reached (at least 4 positive prices), every price
in the output of `removeOutliers` is at least `0.25 × median`, i.e. every
valid price strictly below the semantic floor is discarded; and when the floor
leaves fewer than 4 prices the floored set is returned as-is, without the
log-space IQR stage. -/
theorem removeOutliers_semantic_floor (prices : List ℝ)
    (h4 : 4 ≤ (validPrices prices).length) :
    (∀ p ∈ removeOutliers prices, semanticMedian prices * floorRatio ≤ p) ∧
      ((semanticFiltered prices).length < 4 →
        removeOutliers prices = semanticFiltered prices) := by
  have hlen : ¬ prices.length < 4 :=
    not_lt.mpr (le_trans h4 (validPrices_length_le prices))
  have hv : ¬ (validPrices prices).length < 4 := not_lt.mpr h4
  unfold removeOutliers
  rw [if_neg hlen, if_neg hv]
  split_ifs with hc
  · exact ⟨fun p hp => semanticFiltered_floor prices p hp, fun _ => rfl⟩
  · refine ⟨?_, fun h => absurd h hc⟩
    intro p hp
    have hmem : p ∈ sortedByLog prices := List.mem_of_mem_filter hp
    exact semanticFiltered_floor prices p ((mem_sortedByLog prices p).mp hmem)

/-- Witness for C5 at the spec example `[10, 380, 390, 400, 410]`
(median 390, floor 97.5): the value 10 is excluded from the output. -/
theorem removeOutliers_semantic_floor_witness :
    4 ≤ (validPrices [10, 380, 390, 400, 410]).length ∧
      (10 : ℝ) ∉ removeOutliers [10, 380, 390, 400, 410] := by
  have h4 : 4 ≤ (validPrices ([10, 380, 390, 400, 410] : List ℝ)).length := by
    norm_num [validPrices]
  refine ⟨h4, fun hmem => ?_⟩
  have hfloor := (removeOutliers_semantic_floor [10, 380, 390, 400, 410] h4).1 10 hmem
  have hmed : semanticMedian ([10, 380, 390, 400, 410] : List ℝ) = 390 := by
    have hsorted : ([10, 380, 390, 400, 410] : List ℝ).Sorted (· ≤ ·) := by
      norm_num [List.sorted_cons]
    have : validPrices ([10, 380, 390, 400, 410] : List ℝ) = [10, 380, 390, 400, 410] := by
      norm_num [validPrices]
    rw [semanticMedian, this, hsorted.insertionSort_eq]
    norm_num [medianOfSorted]
  rw [hmed] at hfloor
  norm_num [floorRatio] at hfloor

-- ============================================
-- C4: log-space IQR with interpolated quartiles and asymmetric bounds
-- ============================================

/-- `q1` of `removeOutliers`: the interpolated 25th percentile of the sorted
log-prices. -/
def q1Of (prices : List ℝ) : ℝ := percentileLin ((sortedByLog prices).map Real.log) 0.25

/-- `q3` of `removeOutliers`: the interpolated 75th percentile of the sorted
log-prices. -/
def q3Of (prices : List ℝ) : ℝ := percentileLin ((sortedByLog prices).map Real.log) 0.75

/-- `iqr = q3 - q1` of `removeOutliers`. -/
def iqrOf (prices : List ℝ) : ℝ := q3Of prices - q1Of prices

/-- C4: when at least 4 prices remain after the semantic floor, a price is
kept by `removeOutliers` iff it survived the floor and its natural log lies in
the asymmetric interval `[q1 - 1.5*iqr, q3 + 3.0*iqr]`, where `q1` and `q3`
are the linearly interpolated (index `(n-1)*p`) percentiles of the sorted
log-prices. -/
theorem removeOutliers_iqr_membership (prices : List ℝ)
    (h4 : 4 ≤ (validPrices prices).length)
    (hsf : 4 ≤ (semanticFiltered prices).length) :
    ∀ p : ℝ, p ∈ removeOutliers prices ↔
      p ∈ semanticFiltered prices ∧
        q1Of prices - 1.5 * iqrOf prices ≤ Real.log p ∧
        Real.log p ≤ q3Of prices + 3.0 * iqrOf prices := by
  have hlen : ¬ prices.length < 4 :=
    not_lt.mpr (le_trans h4 (validPrices_length_le prices))
  have hv : ¬ (validPrices prices).length < 4 := not_lt.mpr h4
  have hs : ¬ (semanticFiltered prices).length < 4 := not_lt.mpr hsf
  intro p
  unfold removeOutliers
  rw [if_neg hlen, if_neg hv, if_neg hs]
  simp only [List.mem_filter, mem_sortedByLog, decide_eq_true_eq]
  constructor
  · rintro ⟨hmem, hbounds⟩
    exact ⟨hmem, hbounds.1, hbounds.2⟩
  · rintro ⟨hmem, h1, h2⟩
    exact ⟨hmem, h1, h2⟩

/-- Witness for C4 at `[380, 390, 400, 410]` (all four survive the floor),
instantiated at the price 380. -/
theorem removeOutliers_iqr_membership_witness :
    4 ≤ (validPrices [380, 390, 400, 410]).length ∧
      4 ≤ (semanticFiltered [380, 390, 400, 410]).length ∧
      ((380 : ℝ) ∈ removeOutliers [380, 390, 400, 410] ↔
        (380 : ℝ) ∈ semanticFiltered [380, 390, 400, 410] ∧
          q1Of [380, 390, 400, 410] - 1.5 * iqrOf [380, 390, 400, 410] ≤ Real.log 380 ∧
          Real.log 380 ≤ q3Of [380, 390, 400, 410] + 3.0 * iqrOf [380, 390, 400, 410]) := by
  have hvp : validPrices ([380, 390, 400, 410] : List ℝ) = [380, 390, 400, 410] := by
    norm_num [validPrices]
  have h4 : 4 ≤ (validPrices ([380, 390, 400, 410] : List ℝ)).length := by
    rw [hvp]; norm_num
  have hmed : semanticMedian ([380, 390, 400, 410] : List ℝ) = 395 := by
    have hsorted : ([380, 390, 400, 410] : List ℝ).Sorted (· ≤ ·) := by
      norm_num [List.sorted_cons]
    rw [semanticMedian, hvp, hsorted.insertionSort_eq]
    norm_num [medianOfSorted]
  have hsf : semanticFiltered ([380, 390, 400, 410] : List ℝ) = [380, 390, 400, 410] := by
    rw [semanticFiltered, hvp, hmed]
    norm_num [floorRatio]
  have hsf4 : 4 ≤ (semanticFiltered ([380, 390, 400, 410] : List ℝ)).length := by
    rw [hsf]; norm_num
  exact ⟨h4, hsf4, removeOutliers_iqr_membership [380, 390, 400, 410] h4 hsf4 380⟩


-- ============================================
-- C8: mode = smallest value among those of maximal frequency
-- ============================================

lemma count_append_singleton_ne (l : List ℝ) (a x : ℝ) (h : x ≠ a) :
    (l ++ [a]).count x = l.count x := by
  simp [List.count_append, List.count_singleton', Ne.symm h]

lemma count_append_singleton_self (l : List ℝ) (a : ℝ) :
    (l ++ [a]).count a = l.count a + 1 := by
  simp [List.count_append]

lemma mem_append_singleton_ne {l : List ℝ} {a x : ℝ} (h : x ≠ a)
    (hx : x ∈ l ++ [a]) : x ∈ l := by
  rcases List.mem_append.mp hx with h' | h'
  · exact h'
  · exact absurd (List.mem_singleton.mp h') h

lemma modeGo_invariant (rest : List ℝ) :
    ∀ (seen : List ℝ) (m : ℝ) (mc : ℕ),
      (seen ++ rest).Sorted (· ≤ ·) →
      m ∈ seen → seen.count m = mc →
      (∀ x ∈ seen, seen.count x ≤ mc) →
      (∀ x ∈ seen, seen.count x = mc → m ≤ x) →
      modeGo rest seen m mc ∈ seen ++ rest ∧
        (∀ x, (seen ++ rest).count x ≤ (seen ++ rest).count (modeGo rest seen m mc)) ∧
        (∀ x ∈ seen ++ rest,
          (seen ++ rest).count x = (seen ++ rest).count (modeGo rest seen m mc) →
            modeGo rest seen m mc ≤ x) := by
  induction rest with
  | nil =>
    intro seen m mc _ hm hcount hmax hmin
    refine ⟨by simpa using hm, ?_, ?_⟩
    · intro x
      simp only [List.append_nil]
      by_cases hx : x ∈ seen
      · rw [modeGo, hcount]; exact hmax x hx
      · rw [modeGo]
        simp [List.count_eq_zero.mpr hx]
    · intro x hx hcx
      simp only [List.append_nil] at hx hcx
      rw [modeGo] at hcx ⊢
      exact hmin x hx (by rw [hcx, hcount])
  | cons q rest' ih =>
    intro seen m mc hsorted hm hcount hmax hmin
    have hassoc : seen ++ q :: rest' = (seen ++ [q]) ++ rest' := by simp
    have hsorted' : ((seen ++ [q]) ++ rest').Sorted (· ≤ ·) := by rwa [← hassoc]
    have hle_q : ∀ y ∈ seen, y ≤ q := fun y hy =>
      (List.pairwise_append.mp hsorted).2.2 y hy q (List.mem_cons_self q rest')
    have hstep : modeGo (q :: rest') seen m mc =
        if mc < seen.count q + 1 then modeGo rest' (seen ++ [q]) q (seen.count q + 1)
        else modeGo rest' (seen ++ [q]) m mc := rfl
    by_cases hc : mc < seen.count q + 1
    · -- strictly greater count: the running mode moves to q
      have hres : modeGo (q :: rest') seen m mc =
          modeGo rest' (seen ++ [q]) q (seen.count q + 1) := by rw [hstep, if_pos hc]
      have hmax' : ∀ x ∈ seen ++ [q], (seen ++ [q]).count x ≤ seen.count q + 1 := by
        intro x hx
        by_cases hxq : x = q
        · subst hxq; rw [count_append_singleton_self]
        · rw [count_append_singleton_ne seen q x hxq]
          exact le_trans (hmax x (mem_append_singleton_ne hxq hx)) (le_of_lt hc)
      have hmin' : ∀ x ∈ seen ++ [q], (seen ++ [q]).count x = seen.count q + 1 → q ≤ x := by
        intro x hx hcx
        by_cases hxq : x = q
        · subst hxq; exact le_refl _
        · rw [count_append_singleton_ne seen q x hxq] at hcx
          have := hmax x (mem_append_singleton_ne hxq hx)
          omega
      have := ih (seen ++ [q]) q (seen.count q + 1) hsorted'
        (by simp) (count_append_singleton_self seen q) hmax' hmin'
      rw [hres, hassoc]
      exact this
    · -- count did not strictly increase: keep the running mode
      have hres : modeGo (q :: rest') seen m mc = modeGo rest' (seen ++ [q]) m mc := by
        rw [hstep, if_neg hc]
      have hqm : m ≠ q := by
        intro h
        subst h
        omega
      have hcount' : (seen ++ [q]).count m = mc := by
        rw [count_append_singleton_ne seen q m hqm, hcount]
      have hmax' : ∀ x ∈ seen ++ [q], (seen ++ [q]).count x ≤ mc := by
        intro x hx
        by_cases hxq : x = q
        · subst hxq
          rw [count_append_singleton_self]
          omega
        · rw [count_append_singleton_ne seen q x hxq]
          exact hmax x (mem_append_singleton_ne hxq hx)
      have hmin' : ∀ x ∈ seen ++ [q], (seen ++ [q]).count x = mc → m ≤ x := by
        intro x hx hcx
        by_cases hxq : x = q
        · subst hxq
          exact hle_q m hm
        · rw [count_append_singleton_ne seen q x hxq] at hcx
          exact hmin x (mem_append_singleton_ne hxq hx) hcx
      have := ih (seen ++ [q]) m mc hsorted'
        (List.mem_append_left _ hm) hcount' hmax' hmin'
      rw [hres, hassoc]
      exact this

lemma modeGo_sorted_spec (l : List ℝ) (hl : l ≠ []) (hs : l.Sorted (· ≤ ·)) :
    modeGo l [] (l.getD 0 0) 1 ∈ l ∧
      (∀ x, l.count x ≤ l.count (modeGo l [] (l.getD 0 0) 1)) ∧
      (∀ x ∈ l, l.count x = l.count (modeGo l [] (l.getD 0 0) 1) →
        modeGo l [] (l.getD 0 0) 1 ≤ x) := by
  match l, hl with
  | a :: t, _ =>
    have hstep : modeGo (a :: t) [] a 1 = modeGo t [a] a 1 := by
      rw [modeGo]
      norm_num
    have hgd : (a :: t).getD 0 0 = a := rfl
    have hmax0 : ∀ x ∈ ([a] : List ℝ), ([a] : List ℝ).count x ≤ 1 := by
      intro x hx
      rw [List.mem_singleton.mp hx]
      simp
    have hmin0 : ∀ x ∈ ([a] : List ℝ), ([a] : List ℝ).count x = 1 → a ≤ x := by
      intro x hx _
      rw [List.mem_singleton.mp hx]
    have hinv := modeGo_invariant t [a] a 1 (by simpa using hs) (by simp) (by simp)
      hmax0 hmin0
    rw [hgd, hstep]
    simpa using hinv

/-- C8: for every non-empty price array, the `mode` field of `calculateStats`
is a value of maximal frequency, and among the values tied for maximal
frequency it is the smallest (the single ascending scan replaces the running
mode only on a strictly greater count); and on `[100, 200, 200, 300]` the
stats are exactly `min = 100`, `avg = 200`, `median = 200`, `mode = 200`
(formatted as `100.00` etc. by the display-only `toFixed(2)`). -/
theorem calculateStats_mode_spec :
    (∀ (prices : List ℝ), prices ≠ [] → ∀ st, calculateStats prices = some st →
      st.mode ∈ prices ∧
        (∀ x ∈ prices, prices.count x ≤ prices.count st.mode) ∧
        (∀ x ∈ prices, prices.count x = prices.count st.mode → st.mode ≤ x)) ∧
      calculateStats [100, 200, 200, 300] = some ⟨100, 200, 200, 200⟩ := by
  constructor
  · intro prices hne st hst
    have hlen : ¬ prices.length = 0 := by
      simpa [List.length_eq_zero] using hne
    simp only [calculateStats, if_neg hlen] at hst
    have hst' := Option.some.inj hst
    have hmode : st.mode = modeGo (prices.insertionSort (· ≤ ·)) []
        ((prices.insertionSort (· ≤ ·)).getD 0 0) 1 := by
      rw [← hst']
    have hperm : prices.insertionSort (· ≤ ·) ~ prices := List.perm_insertionSort _ _
    have hne' : prices.insertionSort (· ≤ ·) ≠ [] := by
      intro h
      apply hne
      have hlen' := hperm.length_eq
      rw [h] at hlen'
      exact List.length_eq_zero.mp hlen'.symm
    have hs := List.sorted_insertionSort (· ≤ ·) prices
    obtain ⟨h1, h2, h3⟩ := modeGo_sorted_spec _ hne' hs
    rw [hmode]
    refine ⟨hperm.mem_iff.mp h1, ?_, ?_⟩
    · intro x _
      rw [← hperm.count_eq, ← hperm.count_eq]
      exact h2 x
    · intro x hx hcx
      refine h3 x (hperm.mem_iff.mpr hx) ?_
      rw [hperm.count_eq, hperm.count_eq]
      exact hcx
  · have hsorted : ([100, 200, 200, 300] : List ℝ).Sorted (· ≤ ·) := by
      norm_num [List.sorted_cons]
    have hlen : ¬ ([100, 200, 200, 300] : List ℝ).length = 0 := by norm_num
    have hmode : modeGo [100, 200, 200, 300] [] (([100, 200, 200, 300] : List ℝ).getD 0 0) 1
        = 200 := by
      norm_num [modeGo, List.count_cons, List.count_nil]
    simp only [calculateStats, if_neg hlen, hsorted.insertionSort_eq]
    rw [Option.some.injEq, StatSummary.mk.injEq]
    refine ⟨by norm_num, by norm_num, by norm_num [medianOfSorted], ?_⟩
    simpa using hmode

/-- Witness for C8: the general mode property applied at `[100, 200, 200, 300]`. -/
theorem calculateStats_mode_spec_witness :
    calculateStats [100, 200, 200, 300] = some ⟨100, 200, 200, 200⟩ ∧
      List.count (100 : ℝ) [100, 200, 200, 300] ≤ List.count (200 : ℝ) [100, 200, 200, 300] := by
  refine ⟨calculateStats_mode_spec.2, ?_⟩
  have hne : ([100, 200, 200, 300] : List ℝ) ≠ [] := by simp
  have h := (calculateStats_mode_spec.1 [100, 200, 200, 300] hne ⟨100, 200, 200, 200⟩
    calculateStats_mode_spec.2).2.1 100 (by norm_num)
  exact h

-- ============================================
-- C1: when the estimate is null
-- ============================================

lemma weightSum_pos (now v : ℝ) (l : List ValidListing) (hne : l ≠ []) :
    0 < (l.map fun item => trustWeight now v item).sum := by
  refine List.sum_pos _ ?_ (by simpa using hne)
  intro x hx
  obtain ⟨item, _, rfl⟩ := List.mem_map.mp hx
  exact Real.exp_pos _

lemma sortByDate_length (l : List ValidListing) :
    (sortByDate l).length = l.length :=
  List.length_insertionSort _ _

lemma sortByDate_ne_nil {l : List ValidListing} (h : l ≠ []) : sortByDate l ≠ [] := by
  intro hnil
  apply h
  have := sortByDate_length l
  rw [hnil] at this
  exact List.length_eq_zero.mp this.symm

/-- C1 (amended): `calculateIntelligentAverage` returns `null` exactly when no
listing has both a valid price (`> 0`) and a parseable sold date; it is never
`null` once one such listing exists.  (The claim as stated — never `null` once
a listing with `price > 0` exists — fails when no sold date parses; see the
counterexample.) -/
theorem calculateIntelligentAverage_none_iff (now : ℝ) (listings : List Listing) :
    calculateIntelligentAverage now listings = none ↔ validListings listings = [] := by
  by_cases hv : (validListings listings).length = 0
  · constructor
    · intro _
      exact List.length_eq_zero.mp hv
    · intro _
      simp [calculateIntelligentAverage, hv]
  · have hvne : validListings listings ≠ [] := by
      intro h
      exact hv (by rw [h]; rfl)
    constructor
    · intro h
      exfalso
      simp only [calculateIntelligentAverage, if_neg hv] at h
      split_ifs at h with h4 hr hw
      · exact hw (weightSum_pos now (volatility (sortByDate (validListings listings)))
          (sortByDate (validListings listings)) (sortByDate_ne_nil hvne))
    · intro h
      exact absurd h hvne

/-- Counterexample for C1 as stated: a single listing with valid price `100`
but no parseable sold date yields a `null` estimate. -/
theorem calculateIntelligentAverage_none_counterexample :
    (0 : ℝ) < 100 ∧
      calculateIntelligentAverage 0 [⟨100, none⟩] = none := by
  refine ⟨by norm_num, ?_⟩
  simp [calculateIntelligentAverage, validListings]

-- ============================================
-- C7: 2-3 data points, geometric center with directional trust
-- ============================================

/-- C7: with exactly 2 or 3 valid (price and date) listings, the estimate is
the newest listing's price when that price is strictly below the geometric
center `G = exp(mean(ln price))`, and `(G + newest.price)/2` otherwise. -/
theorem calculateIntelligentAverage_small_n (now : ℝ) (listings : List Listing)
    (h : (validListings listings).length = 2 ∨ (validListings listings).length = 3) :
    calculateIntelligentAverage now listings =
      some (if (newestListing (validListings listings)).price <
          geometricCenter (validListings listings)
        then (newestListing (validListings listings)).price
        else (geometricCenter (validListings listings) +
          (newestListing (validListings listings)).price) / 2) := by
  have hv : ¬ (validListings listings).length = 0 := by rcases h with h | h <;> omega
  have h4 : ¬ 4 ≤ (validListings listings).length := by rcases h with h | h <;> omega
  simp only [calculateIntelligentAverage, if_neg hv, if_neg h4, if_pos h]
  split_ifs <;> rfl

/-- Witness for C7 at the spec example: prices `[200, 100]` with the 100 sold
one day later; since `100 < G = sqrt(200 × 100)`, the estimate is exactly 100. -/
theorem calculateIntelligentAverage_small_n_witness :
    ((validListings [⟨200, some 0⟩, ⟨100, some msPerDay⟩]).length = 2 ∨
      (validListings [⟨200, some 0⟩, ⟨100, some msPerDay⟩]).length = 3) ∧
      calculateIntelligentAverage (2 * msPerDay) [⟨200, some 0⟩, ⟨100, some msPerDay⟩] =
        some 100 := by
  have hvl : validListings [⟨200, some 0⟩, ⟨100, some msPerDay⟩] =
      [⟨200, 0⟩, ⟨100, msPerDay⟩] := by
    norm_num [validListings, List.filterMap_cons]
  have hlen : (validListings [⟨200, some 0⟩, ⟨100, some msPerDay⟩]).length = 2 := by
    rw [hvl]; rfl
  refine ⟨Or.inl hlen, ?_⟩
  rw [calculateIntelligentAverage_small_n (2 * msPerDay) _ (Or.inl hlen), hvl]
  have hnewest : newestListing [⟨200, 0⟩, ⟨100, msPerDay⟩] = ⟨100, msPerDay⟩ := by
    norm_num [newestListing, msPerDay]
  have hG : geometricCenter [(⟨200, 0⟩ : ValidListing), ⟨100, msPerDay⟩] =
      Real.exp ((Real.log 200 + Real.log 100) / 2) := by
    norm_num [geometricCenter]
  rw [hnewest, hG]
  have hlt : (100 : ℝ) < Real.exp ((Real.log 200 + Real.log 100) / 2) := by
    have hlog : Real.log 100 < Real.log 200 := Real.log_lt_log (by norm_num) (by norm_num)
    calc (100 : ℝ) = Real.exp (Real.log 100) := (Real.exp_log (by norm_num)).symm
      _ < Real.exp ((Real.log 200 + Real.log 100) / 2) := by
          rw [Real.exp_lt_exp]
          linarith
  rw [if_pos hlt]

-- ============================================
-- C6: 4+ data points, volatility-weighted average
-- ============================================

/-- C6: with at least 4 valid listings, the estimate sorts by sale date, drops
consecutive pairs with `Δt ≤ 0.25` days (`retainedPairs` keeps `Δt > 0.25`),
and returns the weighted average `Σ(price·w)/Σ(w)` with
`w = exp(-v·daysSinceSale)` and `v` the median of `|Δ ln price|/Δt` over the
retained pairs; when no pair survives it returns the plain arithmetic mean of
all valid prices. -/
theorem calculateIntelligentAverage_weighted (now : ℝ) (listings : List Listing)
    (h4 : 4 ≤ (validListings listings).length) :
    calculateIntelligentAverage now listings =
      some (if (retainedPairs (sortByDate (validListings listings))).length = 0
        then ((validListings listings).map ValidListing.price).sum /
          ((validListings listings).length : ℝ)
        else
          ((sortByDate (validListings listings)).map fun item =>
            item.price * Real.exp (-(volatility (sortByDate (validListings listings)) *
              ((now - item.date) / msPerDay)))).sum /
          ((sortByDate (validListings listings)).map fun item =>
            Real.exp (-(volatility (sortByDate (validListings listings)) *
              ((now - item.date) / msPerDay)))).sum) := by
  have hv : ¬ (validListings listings).length = 0 := by omega
  have hvne : validListings listings ≠ [] := by
    intro h
    rw [h] at hv
    exact hv rfl
  simp only [calculateIntelligentAverage, if_neg hv, if_pos h4]
  by_cases hret : (retainedPairs (sortByDate (validListings listings))).length = 0
  · rw [if_pos hret, if_pos hret]
    have hsum : ((sortByDate (validListings listings)).map ValidListing.price).sum =
        ((validListings listings).map ValidListing.price).sum :=
      ((List.perm_insertionSort _ (validListings listings)).map ValidListing.price).sum_eq
    rw [sortByDate] at hsum ⊢
    rw [hsum]
  · rw [if_neg hret, if_neg hret,
      if_pos (weightSum_pos now (volatility (sortByDate (validListings listings)))
        (sortByDate (validListings listings)) (sortByDate_ne_nil hvne))]
    rfl

/-- Witness for C6: four valid listings all sold at the same instant, so every
pair has `Δt = 0 ≤ 0.25` and the fallback arithmetic mean `25` is returned. -/
theorem calculateIntelligentAverage_weighted_witness :
    4 ≤ (validListings [⟨10, some 0⟩, ⟨20, some 0⟩, ⟨30, some 0⟩, ⟨40, some 0⟩]).length ∧
      calculateIntelligentAverage 7 [⟨10, some 0⟩, ⟨20, some 0⟩, ⟨30, some 0⟩, ⟨40, some 0⟩] =
        some 25 := by
  have hvl : validListings [⟨10, some 0⟩, ⟨20, some 0⟩, ⟨30, some 0⟩, ⟨40, some 0⟩] =
      [⟨10, 0⟩, ⟨20, 0⟩, ⟨30, 0⟩, ⟨40, 0⟩] := by
    norm_num [validListings, List.filterMap_cons]
  have h4 : 4 ≤ (validListings [⟨10, some 0⟩, ⟨20, some 0⟩, ⟨30, some 0⟩, ⟨40, some 0⟩]).length := by
    rw [hvl]; norm_num
  refine ⟨h4, ?_⟩
  rw [calculateIntelligentAverage_weighted 7 _ h4, hvl]
  have hsorted : ([⟨10, 0⟩, ⟨20, 0⟩, ⟨30, 0⟩, ⟨40, 0⟩] : List ValidListing).Sorted
      (fun a b => a.date ≤ b.date) := by
    norm_num [List.sorted_cons]
  have hsort : sortByDate [⟨10, 0⟩, ⟨20, 0⟩, ⟨30, 0⟩, ⟨40, 0⟩] =
      [⟨10, 0⟩, ⟨20, 0⟩, ⟨30, 0⟩, ⟨40, 0⟩] := by
    rw [sortByDate, hsorted.insertionSort_eq]
  rw [hsort]
  have hret : retainedPairs [(⟨10, 0⟩ : ValidListing), ⟨20, 0⟩, ⟨30, 0⟩, ⟨40, 0⟩] = [] := by
    norm_num [retainedPairs, dtDays, msPerDay, MIN_DT_DAYS, List.filter]
  rw [hret]
  norm_num

-- ============================================
-- C10: a non-null estimate lies within the observed price range
-- ============================================

lemma validListings_price_pos (listings : List Listing) :
    ∀ it ∈ validListings listings, 0 < it.price := by
  intro it hit
  rw [validListings, List.mem_filterMap] at hit
  obtain ⟨item, _, heq⟩ := hit
  cases hs : item.sold with
  | none => rw [hs] at heq; simp at heq
  | some d =>
    simp only [hs] at heq
    split_ifs at heq with hp
    have := Option.some.inj heq
    rw [← this]
    exact hp

lemma sum_price_le (b : ℝ) (l : List ValidListing)
    (hb : ∀ it ∈ l, it.price ≤ b) :
    (l.map ValidListing.price).sum ≤ b * l.length := by
  have h := List.sum_le_sum (l := l) (f := ValidListing.price) (g := fun _ => b) hb
  rw [List.map_const', List.sum_replicate, nsmul_eq_mul, mul_comm] at h
  exact h

lemma le_sum_price (a : ℝ) (l : List ValidListing)
    (ha : ∀ it ∈ l, a ≤ it.price) :
    a * l.length ≤ (l.map ValidListing.price).sum := by
  have h := List.sum_le_sum (l := l) (f := fun _ => a) (g := ValidListing.price) ha
  rw [List.map_const', List.sum_replicate, nsmul_eq_mul, mul_comm] at h
  exact h

lemma weighted_avg_bounds (a b : ℝ) (l : List ValidListing) (w : ValidListing → ℝ)
    (hw : ∀ it ∈ l, 0 < w it) (hb : ∀ it ∈ l, a ≤ it.price ∧ it.price ≤ b)
    (hne : l ≠ []) :
    a ≤ (l.map fun it => it.price * w it).sum / (l.map w).sum ∧
      (l.map fun it => it.price * w it).sum / (l.map w).sum ≤ b := by
  have hwpos : 0 < (l.map w).sum := by
    refine List.sum_pos _ ?_ (by simpa using hne)
    intro x hx
    obtain ⟨it, hit, rfl⟩ := List.mem_map.mp hx
    exact hw it hit
  constructor
  · rw [le_div_iff₀ hwpos]
    calc a * (l.map w).sum = (l.map fun it => a * w it).sum :=
          (List.sum_map_mul_left l w a).symm
      _ ≤ (l.map fun it => it.price * w it).sum :=
          List.sum_le_sum fun it hit =>
            mul_le_mul_of_nonneg_right (hb it hit).1 (le_of_lt (hw it hit))
  · rw [div_le_iff₀ hwpos]
    calc (l.map fun it => it.price * w it).sum
        ≤ (l.map fun it => b * w it).sum :=
          List.sum_le_sum fun it hit =>
            mul_le_mul_of_nonneg_right (hb it hit).2 (le_of_lt (hw it hit))
      _ = b * (l.map w).sum := List.sum_map_mul_left l w b

lemma geometricCenter_bounds (a b : ℝ) (l : List ValidListing)
    (hpos : ∀ it ∈ l, 0 < it.price) (hb : ∀ it ∈ l, a ≤ it.price ∧ it.price ≤ b)
    (hne : l ≠ []) :
    a ≤ geometricCenter l ∧ geometricCenter l ≤ b := by
  have hlpos : 0 < (l.length : ℝ) := by
    have : l.length ≠ 0 := by
      intro h
      exact hne (List.length_eq_zero.mp h)
    positivity
  obtain ⟨it₀, hit₀⟩ := List.exists_mem_of_ne_nil l hne
  have hbpos : 0 < b := lt_of_lt_of_le (hpos it₀ hit₀) (hb it₀ hit₀).2
  constructor
  · by_cases ha : a ≤ 0
    · exact le_trans ha (le_of_lt (Real.exp_pos _))
    · push_neg at ha
      have hlog : ∀ x ∈ l.map fun it => Real.log it.price, Real.log a ≤ x := by
        intro x hx
        obtain ⟨it, hit, rfl⟩ := List.mem_map.mp hx
        exact Real.log_le_log ha (hb it hit).1
      have hsum : Real.log a * l.length ≤ (l.map fun it => Real.log it.price).sum := by
        have h := List.sum_le_sum (l := l) (f := fun _ => Real.log a)
          (g := fun it => Real.log it.price)
          (fun it hit => Real.log_le_log ha (hb it hit).1)
        rw [List.map_const', List.sum_replicate, nsmul_eq_mul, mul_comm] at h
        simpa using h
      have hdiv : Real.log a ≤ (l.map fun it => Real.log it.price).sum / l.length := by
        rw [le_div_iff₀ hlpos]
        simpa [List.length_map] using hsum
      calc a = Real.exp (Real.log a) := (Real.exp_log ha).symm
        _ ≤ geometricCenter l := Real.exp_le_exp.mpr hdiv
  · have hsum : (l.map fun it => Real.log it.price).sum ≤ Real.log b * l.length := by
      have h := List.sum_le_sum (l := l) (f := fun it => Real.log it.price)
        (g := fun _ => Real.log b)
        (fun it hit => Real.log_le_log (hpos it hit) (hb it hit).2)
      rw [List.map_const', List.sum_replicate, nsmul_eq_mul, mul_comm] at h
      simpa using h
    have hdiv : (l.map fun it => Real.log it.price).sum / l.length ≤ Real.log b := by
      rw [div_le_iff₀ hlpos]
      simpa [List.length_map] using hsum
    calc geometricCenter l ≤ Real.exp (Real.log b) := Real.exp_le_exp.mpr hdiv
      _ = b := Real.exp_log hbpos

lemma newestListing_mem (l : List ValidListing) (hne : l ≠ []) :
    newestListing l ∈ l := by
  have hfold : ∀ (t : List ValidListing) (init : ValidListing) (S : List ValidListing),
      init ∈ S → (∀ y ∈ t, y ∈ S) →
      t.foldl (fun newest item => if newest.date < item.date then item else newest) init ∈ S := by
    intro t
    induction t with
    | nil => intro init S hinit _; exact hinit
    | cons y t' ih =>
      intro init S hinit hmem
      simp only [List.foldl_cons]
      refine ih _ S ?_ fun z hz => hmem z (List.mem_cons_of_mem _ hz)
      by_cases hd : init.date < y.date
      · rw [if_pos hd]; exact hmem y (List.mem_cons_self _ _)
      · rw [if_neg hd]; exact hinit
  match l, hne with
  | x :: t, _ =>
    exact hfold t x (x :: t) (List.mem_cons_self _ _)
      (fun y hy => List.mem_cons_of_mem _ hy)

/-- C10: whenever `calculateIntelligentAverage` returns a non-null estimate,
that estimate lies between any lower bound and any upper bound of the valid
listings' prices — in particular between their minimum and maximum. -/
theorem calculateIntelligentAverage_in_range (now a b : ℝ) (listings : List Listing) (r : ℝ)
    (hr : calculateIntelligentAverage now listings = some r)
    (hb : ∀ it ∈ validListings listings, a ≤ it.price ∧ it.price ≤ b) :
    a ≤ r ∧ r ≤ b := by
  by_cases hv : (validListings listings).length = 0
  · rw [calculateIntelligentAverage, if_pos hv] at hr
    exact absurd hr (by simp)
  · have hvne : validListings listings ≠ [] := by
      intro h
      rw [h] at hv
      exact hv rfl
    have hspos : ∀ it ∈ sortByDate (validListings listings), a ≤ it.price ∧ it.price ≤ b :=
      fun it hit => hb it ((List.perm_insertionSort _ _).mem_iff.mp hit)
    have hsne : sortByDate (validListings listings) ≠ [] := sortByDate_ne_nil hvne
    have hslen : (sortByDate (validListings listings)).length =
        (validListings listings).length := sortByDate_length _
    simp only [calculateIntelligentAverage, if_neg hv] at hr
    split_ifs at hr with h4 hret hw h23 hlt
    · -- fallback arithmetic mean over the date-sorted listings
      have hval := Option.some.inj hr
      subst hval
      have hnpos : 0 < ((validListings listings).length : ℝ) := by positivity
      constructor
      · rw [le_div_iff₀ hnpos]
        have := le_sum_price a _ fun it hit => (hspos it hit).1
        rw [hslen] at this
        linarith
      · rw [div_le_iff₀ hnpos]
        have := sum_price_le b _ fun it hit => (hspos it hit).2
        rw [hslen] at this
        linarith
    · -- volatility-weighted average
      have hval := Option.some.inj hr
      subst hval
      exact weighted_avg_bounds a b _ _
        (fun it _ => Real.exp_pos _) hspos hsne
    · -- 2-3 points, newest below the geometric center
      have hval := Option.some.inj hr
      subst hval
      exact hb _ (newestListing_mem _ hvne)
    · -- 2-3 points, blend of geometric center and newest
      have hval := Option.some.inj hr
      subst hval
      have h1 := geometricCenter_bounds a b _ (validListings_price_pos listings) hb hvne
      have h2 := hb _ (newestListing_mem _ hvne)
      constructor
      · linarith [h1.1, h2.1]
      · linarith [h1.2, h2.2]
    · -- single observation
      have hval := Option.some.inj hr
      subst hval
      have hmem : (validListings listings).headI ∈ validListings listings := by
        match validListings listings, hvne with
        | x :: t, _ => exact List.mem_cons_self _ _
      exact hb _ hmem

/-- Witness for C10: a single valid listing of price 150 yields exactly 150,
which lies in the (degenerate) range `[150, 150]`. -/
theorem calculateIntelligentAverage_in_range_witness :
    calculateIntelligentAverage 3 [⟨150, some 0⟩] = some 150 ∧
      ((150 : ℝ) ≤ 150 ∧ (150 : ℝ) ≤ 150) := by
  have hvl : validListings [⟨150, some 0⟩] = [⟨150, 0⟩] := by
    norm_num [validListings, List.filterMap_cons]
  have hres : calculateIntelligentAverage 3 [⟨150, some 0⟩] = some 150 := by
    rw [calculateIntelligentAverage, hvl]
    norm_num
  refine ⟨hres, ?_⟩
  have hb : ∀ it ∈ validListings [⟨150, some 0⟩], (150 : ℝ) ≤ it.price ∧ it.price ≤ 150 := by
    rw [hvl]
    intro it hit
    rw [List.mem_singleton.mp hit]
    norm_num
  exact calculateIntelligentAverage_in_range 3 150 150 [⟨150, some 0⟩] 150 hres hb

-- ============================================
-- C2: histogram frequency conservation
-- ============================================

lemma bump_length (fs : List ℕ) (i : ℕ) : (bump fs i).length = fs.length := by
  induction fs generalizing i with
  | nil => simp [bump]
  | cons x xs ih =>
    cases i with
    | zero => simp [bump]
    | succ n => simp [bump, ih]

lemma bump_sum (fs : List ℕ) (i : ℕ) (h : i < fs.length) :
    (bump fs i).sum = fs.sum + 1 := by
  induction fs generalizing i with
  | nil => simp at h
  | cons x xs ih =>
    cases i with
    | zero => simp [bump]; omega
    | succ n =>
      have hn : n < xs.length := by simpa using h
      simp [bump, ih n hn]
      omega

/-- The clamped bin index of one price, relative to a frequency array of
length `k` (proof-side abbreviation of the `actualIndex` computed by
`histStep`). -/
def actualIdx (s w : ℝ) (k : ℕ) (p : ℝ) : ℤ :=
  if (k : ℤ) ≤ ⌊(p - s) / w⌋ then (k : ℤ) - 1 else ⌊(p - s) / w⌋

lemma histStep_eq_bump (s w : ℝ) (fs : List ℕ) (p : ℝ)
    (h : 0 ≤ actualIdx s w fs.length p ∧ actualIdx s w fs.length p < (fs.length : ℤ)) :
    histStep s w fs p = bump fs (actualIdx s w fs.length p).toNat := by
  simp only [histStep, actualIdx] at h ⊢
  rw [if_pos h]

lemma histFold_sum (s w : ℝ) (ps : List ℝ) :
    ∀ fs : List ℕ,
      (∀ p ∈ ps, 0 ≤ actualIdx s w fs.length p ∧ actualIdx s w fs.length p < (fs.length : ℤ)) →
      (ps.foldl (histStep s w) fs).sum = fs.sum + ps.length := by
  induction ps with
  | nil => intro fs _; simp
  | cons p ps' ih =>
    intro fs hin
    have hp := hin p (List.mem_cons_self _ _)
    have htoNat : (actualIdx s w fs.length p).toNat < fs.length := by omega
    simp only [List.foldl_cons]
    rw [histStep_eq_bump s w fs p hp]
    have hlen : (bump fs (actualIdx s w fs.length p).toNat).length = fs.length :=
      bump_length _ _
    rw [ih _ ?_]
    · rw [bump_sum fs _ htoNat]
      simp only [List.length_cons]
      omega
    · intro q hq
      rw [hlen]
      exact hin q (List.mem_cons_of_mem _ hq)

lemma sorted_getD_zero_le (l : List ℝ) (hs : l.Sorted (· ≤ ·)) :
    ∀ x ∈ l, l.getD 0 0 ≤ x := by
  match l with
  | [] => intro x hx; simp at hx
  | a :: t =>
    intro x hx
    rcases List.mem_cons.mp hx with rfl | hx'
    · exact le_refl _
    · exact List.rel_of_sorted_cons hs x hx'

lemma getD_last_mem (l : List ℝ) (h : l ≠ []) : l.getD (l.length - 1) 0 ∈ l := by
  induction l with
  | nil => exact absurd rfl h
  | cons a t ih =>
    cases t with
    | nil => simp
    | cons b t' =>
      have hidx : (a :: b :: t').length - 1 = ((b :: t').length - 1) + 1 := by simp
      rw [hidx, List.getD_cons_succ]
      exact List.mem_cons_of_mem _ (ih (by simp))

lemma le_sorted_getD_last (l : List ℝ) (hs : l.Sorted (· ≤ ·)) :
    ∀ x ∈ l, x ≤ l.getD (l.length - 1) 0 := by
  induction l with
  | nil => intro x hx; simp at hx
  | cons a t ih =>
    intro x hx
    cases t with
    | nil =>
      rw [List.mem_singleton.mp hx]
      exact le_refl _
    | cons b t' =>
      have hidx : (a :: b :: t').length - 1 = ((b :: t').length - 1) + 1 := by simp
      rw [hidx, List.getD_cons_succ]
      rcases List.mem_cons.mp hx with rfl | hx'
      · exact List.rel_of_sorted_cons hs _ (getD_last_mem _ (by simp))
      · exact ih hs.of_cons x hx'

lemma calculateBinWidth_ge_one (prices : List ℝ) : 1 ≤ calculateBinWidth prices := by
  rw [calculateBinWidth]
  split_ifs <;> norm_num [le_max_iff]

/-- C2 (amended): for every listing array whose positive prices are non-empty
and whose bin range is non-degenerate (at least one bin, which fails only when
all prices are equal to an exact multiple of the bin width), the frequencies
of `generateHistogramData` sum to the number of positive prices, and the bins
extend to cover the maximum price (`max ≤ endBin = ⌈max/w⌉·w`, a price exactly
on the final bin's upper boundary being clamped into the last bin). -/
theorem generateHistogramData_conservation (listings : List Listing)
    (hne : (histPrices listings).length ≠ 0)
    (hk : 0 < numBins (histMin listings) (histMax listings)
      (calculateBinWidth (histPrices listings))) :
    (generateHistogramData listings).frequencies.sum = (histPrices listings).length ∧
      histMax listings ≤
        (⌈histMax listings / calculateBinWidth (histPrices listings)⌉ : ℝ) *
          calculateBinWidth (histPrices listings) := by
  have hw1 : 1 ≤ calculateBinWidth (histPrices listings) :=
    calculateBinWidth_ge_one (histPrices listings)
  have hwpos : 0 < calculateBinWidth (histPrices listings) := lt_of_lt_of_le one_pos hw1
  have hcover : histMax listings ≤
      (⌈histMax listings / calculateBinWidth (histPrices listings)⌉ : ℝ) *
        calculateBinWidth (histPrices listings) := by
    have hceil := Int.le_ceil (histMax listings / calculateBinWidth (histPrices listings))
    calc histMax listings
        = (histMax listings / calculateBinWidth (histPrices listings)) *
            calculateBinWidth (histPrices listings) :=
          (div_mul_cancel₀ _ (ne_of_gt hwpos)).symm
      _ ≤ _ := mul_le_mul_of_nonneg_right hceil (le_of_lt hwpos)
  refine ⟨?_, hcover⟩
  have hstart : (⌊histMin listings / calculateBinWidth (histPrices listings)⌋ : ℝ) *
      calculateBinWidth (histPrices listings) ≤ histMin listings := by
    have hfl := Int.floor_le (histMin listings / calculateBinWidth (histPrices listings))
    calc (⌊histMin listings / calculateBinWidth (histPrices listings)⌋ : ℝ) *
        calculateBinWidth (histPrices listings)
        ≤ (histMin listings / calculateBinWidth (histPrices listings)) *
            calculateBinWidth (histPrices listings) :=
          mul_le_mul_of_nonneg_right hfl (le_of_lt hwpos)
      _ = histMin listings := div_mul_cancel₀ _ (ne_of_gt hwpos)
  have hsorted : (sortedPrices (histPrices listings)).Sorted (· ≤ ·) :=
    List.sorted_insertionSort _ _
  have hminle : ∀ p ∈ histPrices listings, histMin listings ≤ p := by
    intro p hp
    exact sorted_getD_zero_le _ hsorted p ((List.perm_insertionSort _ _).mem_iff.mpr hp)
  have hin : ∀ p ∈ histPrices listings,
      0 ≤ actualIdx
          ((⌊histMin listings / calculateBinWidth (histPrices listings)⌋ : ℝ) *
            calculateBinWidth (histPrices listings))
          (calculateBinWidth (histPrices listings))
          (numBins (histMin listings) (histMax listings)
            (calculateBinWidth (histPrices listings))) p ∧
        actualIdx
          ((⌊histMin listings / calculateBinWidth (histPrices listings)⌋ : ℝ) *
            calculateBinWidth (histPrices listings))
          (calculateBinWidth (histPrices listings))
          (numBins (histMin listings) (histMax listings)
            (calculateBinWidth (histPrices listings))) p <
          ((numBins (histMin listings) (histMax listings)
            (calculateBinWidth (histPrices listings))) : ℤ) := by
    intro p hp
    have h0 : 0 ≤ ⌊(p - (⌊histMin listings / calculateBinWidth (histPrices listings)⌋ : ℝ) *
        calculateBinWidth (histPrices listings)) / calculateBinWidth (histPrices listings)⌋ := by
      apply Int.floor_nonneg.mpr
      apply div_nonneg _ (le_of_lt hwpos)
      have := hminle p hp
      linarith
    rw [actualIdx]
    split_ifs with hclamp
    · omega
    · exact ⟨h0, not_le.mp hclamp⟩
  simp only [generateHistogramData, if_neg hne]
  have hfold := histFold_sum
    ((⌊histMin listings / calculateBinWidth (histPrices listings)⌋ : ℝ) *
      calculateBinWidth (histPrices listings))
    (calculateBinWidth (histPrices listings))
    (histPrices listings)
    (List.replicate (numBins (histMin listings) (histMax listings)
      (calculateBinWidth (histPrices listings))) 0)
    (by
      intro p hp
      rw [List.length_replicate]
      exact hin p hp)
  rw [List.sum_replicate] at hfold
  simpa using hfold

/-- Witness for C2 at two listings of price 5: bin width 10, one bin `[0, 10)`,
frequencies summing to 2. -/
theorem generateHistogramData_conservation_witness :
    (histPrices [⟨5, none⟩, ⟨5, none⟩]).length ≠ 0 ∧
      0 < numBins (histMin [⟨5, none⟩, ⟨5, none⟩]) (histMax [⟨5, none⟩, ⟨5, none⟩])
        (calculateBinWidth (histPrices [⟨5, none⟩, ⟨5, none⟩])) ∧
      (generateHistogramData [⟨5, none⟩, ⟨5, none⟩]).frequencies.sum =
        (histPrices [⟨5, none⟩, ⟨5, none⟩]).length := by
  have hprices : histPrices [⟨5, none⟩, ⟨5, none⟩] = [5, 5] := by
    norm_num [histPrices]
  have hsorted : sortedPrices ([5, 5] : List ℝ) = [5, 5] := by
    have hs : ([5, 5] : List ℝ).Sorted (· ≤ ·) := by norm_num [List.sorted_cons]
    rw [sortedPrices, hs.insertionSort_eq]
  have hrange : priceRange ([5, 5] : List ℝ) = 0 := by
    rw [priceRange, hsorted]
    norm_num
  have hbw : calculateBinWidth ([5, 5] : List ℝ) = 10 := by
    rw [calculateBinWidth, if_neg (by norm_num), if_pos hrange]
  have hmin : histMin [⟨5, none⟩, ⟨5, none⟩] = 5 := by
    rw [histMin, hprices, hsorted]
    norm_num
  have hmax : histMax [⟨5, none⟩, ⟨5, none⟩] = 5 := by
    rw [histMax, hprices, hsorted]
    norm_num
  have hfloor : ⌊(5 : ℝ) / 10⌋ = 0 := by
    rw [Int.floor_eq_iff]
    norm_num
  have hceil : ⌈(5 : ℝ) / 10⌉ = 1 := by
    rw [Int.ceil_eq_iff]
    norm_num
  have hnb : numBins 5 5 10 = 1 := by
    rw [numBins, hfloor, hceil]
    decide
  have hne : (histPrices [⟨5, none⟩, ⟨5, none⟩]).length ≠ 0 := by
    rw [hprices]
    norm_num
  have hk : 0 < numBins (histMin [⟨5, none⟩, ⟨5, none⟩]) (histMax [⟨5, none⟩, ⟨5, none⟩])
      (calculateBinWidth (histPrices [⟨5, none⟩, ⟨5, none⟩])) := by
    rw [hmin, hmax, hprices, hbw, hnb]
    norm_num
  exact ⟨hne, hk, (generateHistogramData_conservation [⟨5, none⟩, ⟨5, none⟩] hne hk).1⟩

/-- Counterexample for C2 as stated: for the positive price array `[10, 10]`
(all prices equal to an exact multiple of the computed bin width 10), the bin
range collapses (`startBin = endBin = 10`), no bin is created, and the
frequencies sum to 0 rather than 2. -/
theorem generateHistogramData_conservation_counterexample :
    (histPrices [⟨10, none⟩, ⟨10, none⟩]).length = 2 ∧
      (generateHistogramData [⟨10, none⟩, ⟨10, none⟩]).frequencies.sum = 0 := by
  have hprices : histPrices [⟨10, none⟩, ⟨10, none⟩] = [10, 10] := by
    norm_num [histPrices]
  have hsorted : sortedPrices ([10, 10] : List ℝ) = [10, 10] := by
    have hs : ([10, 10] : List ℝ).Sorted (· ≤ ·) := by norm_num [List.sorted_cons]
    rw [sortedPrices, hs.insertionSort_eq]
  have hrange : priceRange ([10, 10] : List ℝ) = 0 := by
    rw [priceRange, hsorted]
    norm_num
  have hbw : calculateBinWidth ([10, 10] : List ℝ) = 10 := by
    rw [calculateBinWidth, if_neg (by norm_num), if_pos hrange]
  have hmin : histMin [⟨10, none⟩, ⟨10, none⟩] = 10 := by
    rw [histMin, hprices, hsorted]
    norm_num
  have hmax : histMax [⟨10, none⟩, ⟨10, none⟩] = 10 := by
    rw [histMax, hprices, hsorted]
    norm_num
  have hfloor : ⌊(10 : ℝ) / 10⌋ = 1 := by
    rw [Int.floor_eq_iff]
    norm_num
  have hceil : ⌈(10 : ℝ) / 10⌉ = 1 := by
    rw [Int.ceil_eq_iff]
    norm_num
  have hnb : numBins 10 10 10 = 0 := by
    rw [numBins, hfloor, hceil]
    norm_num
  refine ⟨by rw [hprices]; norm_num, ?_⟩
  simp only [generateHistogramData]
  rw [hprices, hmin, hmax, hbw, hnb, if_neg (by norm_num)]
  have hstep0 : histStep 10 10 ([] : List ℕ) 10 = [] := by
    simp only [histStep]
    norm_num
  simp [hstep0]

-- ============================================
-- C3: bin-width rounding to a "nice" number
-- ============================================

/-- C3 (amended): once the rounding stage is reached (at least two prices,
non-zero range) and the raw Freedman-Diaconis/Sturges width is at least 1 (so
the final `Math.max(1, ·)` floor does not override the rounding),
`calculateBinWidth` returns `1`, `2`, `5` or `10` times the power of ten
`10^⌊log10 w⌋ ≤ w`; the multiplier is chosen by rounding the normalized width
up within its decade, not to the nearest nice number, and raw widths below 1
are overridden by the floor (see the counterexample). -/
theorem calculateBinWidth_nice_rounding (prices : List ℝ)
    (h2 : ¬ prices.length < 2) (hrange : priceRange prices ≠ 0)
    (hraw : 1 ≤ rawBinWidth prices) :
    ∃ z : ℤ, (10 : ℝ) ^ z ≤ rawBinWidth prices ∧
      (calculateBinWidth prices = 1 * (10 : ℝ) ^ z ∨
       calculateBinWidth prices = 2 * (10 : ℝ) ^ z ∨
       calculateBinWidth prices = 5 * (10 : ℝ) ^ z ∨
       calculateBinWidth prices = 10 * (10 : ℝ) ^ z) := by
  have hwpos : (0 : ℝ) < rawBinWidth prices := lt_of_lt_of_le one_pos hraw
  have hz0 : 0 ≤ ⌊Real.logb 10 (rawBinWidth prices)⌋ :=
    Int.floor_nonneg.mpr (Real.logb_nonneg (by norm_num) hraw)
  have hmag1 : (1 : ℝ) ≤ (10 : ℝ) ^ ⌊Real.logb 10 (rawBinWidth prices)⌋ :=
    one_le_zpow₀ (by norm_num) hz0
  have hmagle : (10 : ℝ) ^ ⌊Real.logb 10 (rawBinWidth prices)⌋ ≤ rawBinWidth prices := by
    have h1 : ((10 : ℝ) ^ ⌊Real.logb 10 (rawBinWidth prices)⌋ : ℝ) =
        (10 : ℝ) ^ ((⌊Real.logb 10 (rawBinWidth prices)⌋ : ℤ) : ℝ) :=
      (Real.rpow_intCast 10 _).symm
    rw [h1]
    calc (10 : ℝ) ^ ((⌊Real.logb 10 (rawBinWidth prices)⌋ : ℤ) : ℝ)
        ≤ (10 : ℝ) ^ Real.logb 10 (rawBinWidth prices) :=
          (Real.rpow_le_rpow_left_iff (by norm_num : (1 : ℝ) < 10)).mpr
            (Int.floor_le _)
      _ = rawBinWidth prices := Real.rpow_logb (by norm_num) (by norm_num) hwpos
  refine ⟨⌊Real.logb 10 (rawBinWidth prices)⌋, hmagle, ?_⟩
  have hmax : ∀ c : ℝ, 1 ≤ c →
      max 1 (c * (10 : ℝ) ^ ⌊Real.logb 10 (rawBinWidth prices)⌋) =
        c * (10 : ℝ) ^ ⌊Real.logb 10 (rawBinWidth prices)⌋ := by
    intro c hc
    apply max_eq_right
    calc (1 : ℝ) = 1 * 1 := by ring
      _ ≤ c * (10 : ℝ) ^ ⌊Real.logb 10 (rawBinWidth prices)⌋ :=
          mul_le_mul hc hmag1 (by norm_num) (le_trans (by norm_num) hc)
  simp only [calculateBinWidth, if_neg h2, if_neg hrange]
  split_ifs with hn1 hn2 hn5
  · exact Or.inl (hmax 1 (le_refl _))
  · exact Or.inr (Or.inl (hmax 2 (by norm_num)))
  · exact Or.inr (Or.inr (Or.inl (hmax 5 (by norm_num))))
  · exact Or.inr (Or.inr (Or.inr (hmax 10 (by norm_num))))

/-- Witness for C3 at `[10, 20]`: two prices, so Sturges applies
(`numBins = ceil(1 + log2 2) = 2`, raw width `10/2 = 5 ≥ 1`), and the
conclusion holds. -/
theorem calculateBinWidth_nice_rounding_witness :
    (¬ ([10, 20] : List ℝ).length < 2) ∧ priceRange [10, 20] ≠ 0 ∧
      1 ≤ rawBinWidth [10, 20] ∧
      (∃ z : ℤ, (10 : ℝ) ^ z ≤ rawBinWidth [10, 20] ∧
        (calculateBinWidth [10, 20] = 1 * (10 : ℝ) ^ z ∨
         calculateBinWidth [10, 20] = 2 * (10 : ℝ) ^ z ∨
         calculateBinWidth [10, 20] = 5 * (10 : ℝ) ^ z ∨
         calculateBinWidth [10, 20] = 10 * (10 : ℝ) ^ z)) := by
  have h2 : ¬ ([10, 20] : List ℝ).length < 2 := by norm_num
  have hsorted : sortedPrices ([10, 20] : List ℝ) = [10, 20] := by
    have hs : ([10, 20] : List ℝ).Sorted (· ≤ ·) := by norm_num [List.sorted_cons]
    rw [sortedPrices, hs.insertionSort_eq]
  have hrange : priceRange ([10, 20] : List ℝ) = 10 := by
    rw [priceRange, hsorted]
    norm_num
  have hrange' : priceRange ([10, 20] : List ℝ) ≠ 0 := by
    rw [hrange]; norm_num
  have hraw : rawBinWidth ([10, 20] : List ℝ) = 5 := by
    simp only [rawBinWidth, hsorted, hrange]
    have hq1 : (⌊(([10, 20] : List ℝ).length : ℝ) * 0.25⌋).toNat = 0 := by
      norm_num
    have hq3 : (⌊(([10, 20] : List ℝ).length : ℝ) * 0.75⌋).toNat = 1 := by
      norm_num
    have hlog : Real.logb 2 (([10, 20] : List ℝ).length : ℝ) = 1 := by
      norm_num
    rw [hq1, hq3, if_neg (by norm_num), hlog]
    norm_num
  have hraw1 : 1 ≤ rawBinWidth ([10, 20] : List ℝ) := by
    rw [hraw]; norm_num
  exact ⟨h2, hrange', hraw1,
    calculateBinWidth_nice_rounding [10, 20] h2 hrange' hraw1⟩

/-- Counterexample for C3 as stated: for `[1, 1.05]` the raw Sturges width is
`0.05/2 = 1/40`; the decade rounding gives `5 × 10⁻² = 0.05` and the final
`Math.max(1, ·)` floor forces the result to `1`, which is not `1`, `2`, `5` or
`10` times any power of ten that is `≤ 1/40`. -/
theorem calculateBinWidth_nice_rounding_counterexample :
    rawBinWidth [1, 1.05] = 1 / 40 ∧ calculateBinWidth [1, 1.05] = 1 ∧
      ¬ ∃ z : ℤ, (10 : ℝ) ^ z ≤ rawBinWidth [1, 1.05] ∧
        (calculateBinWidth [1, 1.05] = 1 * (10 : ℝ) ^ z ∨
         calculateBinWidth [1, 1.05] = 2 * (10 : ℝ) ^ z ∨
         calculateBinWidth [1, 1.05] = 5 * (10 : ℝ) ^ z ∨
         calculateBinWidth [1, 1.05] = 10 * (10 : ℝ) ^ z) := by
  have hsorted : sortedPrices ([1, 1.05] : List ℝ) = [1, 1.05] := by
    have hs : ([1, 1.05] : List ℝ).Sorted (· ≤ ·) := by norm_num [List.sorted_cons]
    rw [sortedPrices, hs.insertionSort_eq]
  have hrange : priceRange ([1, 1.05] : List ℝ) = 1 / 20 := by
    rw [priceRange, hsorted]
    norm_num
  have hraw : rawBinWidth ([1, 1.05] : List ℝ) = 1 / 40 := by
    simp only [rawBinWidth, hsorted, hrange]
    have hq1 : (⌊(([1, 1.05] : List ℝ).length : ℝ) * 0.25⌋).toNat = 0 := by
      norm_num
    have hq3 : (⌊(([1, 1.05] : List ℝ).length : ℝ) * 0.75⌋).toNat = 1 := by
      norm_num
    have hlog : Real.logb 2 (([1, 1.05] : List ℝ).length : ℝ) = 1 := by
      norm_num
    rw [hq1, hq3, if_neg (by norm_num), hlog]
    norm_num
  have hfloorlog : ⌊Real.logb 10 (rawBinWidth ([1, 1.05] : List ℝ))⌋ = -2 := by
    rw [hraw, Int.floor_eq_iff]
    constructor
    · rw [Real.le_logb_iff_rpow_le (by norm_num : (1 : ℝ) < 10) (by norm_num : (0 : ℝ) < 1 / 40)]
      rw [show ((-2 : ℤ) : ℝ) = ((-2 : ℤ) : ℝ) from rfl, Real.rpow_intCast]
      norm_num
    · rw [show ((-2 : ℤ) : ℝ) + 1 = ((-1 : ℤ) : ℝ) by norm_num]
      rw [Real.logb_lt_iff_lt_rpow (by norm_num : (1 : ℝ) < 10) (by norm_num : (0 : ℝ) < 1 / 40)]
      rw [Real.rpow_intCast]
      norm_num
  have hmag : ((10 : ℝ) ^ ⌊Real.logb 10 (rawBinWidth ([1, 1.05] : List ℝ))⌋ : ℝ) = 1 / 100 := by
    rw [hfloorlog]
    norm_num
  have hbw : calculateBinWidth ([1, 1.05] : List ℝ) = 1 := by
    simp only [calculateBinWidth, if_neg (by norm_num : ¬ ([1, 1.05] : List ℝ).length < 2),
      if_neg (by rw [hrange]; norm_num : ¬ priceRange ([1, 1.05] : List ℝ) = 0)]
    rw [hmag, hraw]
    rw [if_neg (by norm_num), if_neg (by norm_num), if_pos (by norm_num)]
    rw [max_eq_left (by norm_num)]
  refine ⟨hraw, hbw, ?_⟩
  rintro ⟨z, hz, hcase⟩
  rw [hraw] at hz
  have hz2 : z ≤ -2 := by
    by_contra hzc
    push_neg at hzc
    have hge : (10 : ℝ) ^ (-1 : ℤ) ≤ (10 : ℝ) ^ z :=
      zpow_le_zpow_right₀ (by norm_num) (by omega)
    rw [show ((10 : ℝ) ^ (-1 : ℤ)) = 1 / 10 by norm_num] at hge
    linarith
  have hle : (10 : ℝ) ^ z ≤ (10 : ℝ) ^ (-2 : ℤ) :=
    zpow_le_zpow_right₀ (by norm_num) hz2
  rw [show ((10 : ℝ) ^ (-2 : ℤ)) = 1 / 100 by norm_num] at hle
  have hzpos : (0 : ℝ) < (10 : ℝ) ^ z := zpow_pos (by norm_num) z
  rcases hcase with h | h | h | h <;> rw [hbw] at h <;> linarith
